import Mathlib

/-!
Verification of the `dvc dag` graph engine (`dvc/commands/dag.py`).

The Python source manipulates `networkx.DiGraph` values whose nodes are
strings.  We embed such a graph as a list of nodes together with a list of
directed edges; the lists carry the (deterministic) insertion order of the
Python dictionaries backing `DiGraph`, while all properties we prove are
stated at the level of membership (set semantics), which is insensitive to
that order.
-/

namespace DvcDag

/-- A directed graph over string identifiers, the shallow embedding of a
`networkx.DiGraph` whose nodes are strings (nodes and adjacency are kept in
insertion order by networkx; we keep them as lists). -/
structure Graph where
  nodes : List String
  edges : List (String × String)
deriving DecidableEq, Repr

/-- §3 invariant: every edge endpoint is present in the node set. -/
def WellFormed (g : Graph) : Prop :=
  ∀ e ∈ g.edges, e.1 ∈ g.nodes ∧ e.2 ∈ g.nodes

instance : DecidablePred WellFormed := fun g =>
  inferInstanceAs (Decidable (∀ e ∈ g.edges, e.1 ∈ g.nodes ∧ e.2 ∈ g.nodes))

/-- `DiGraph.add_node`: a node already present is kept, otherwise it is
appended. -/
def addNode (g : Graph) (n : String) : Graph :=
  if n ∈ g.nodes then g else { g with nodes := g.nodes ++ [n] }

/-- `DiGraph.add_nodes_from`: add the nodes one by one. -/
def addNodesFrom (g : Graph) (ns : List String) : Graph :=
  ns.foldl addNode g

/-- `DiGraph.add_edge`: both endpoints are added as nodes if missing, then
the edge is added if not already present. -/
def addEdge (g : Graph) (e : String × String) : Graph :=
  let g := addNode (addNode g e.1) e.2
  if e ∈ g.edges then g else { g with edges := g.edges ++ [e] }

/-- `DiGraph.add_edges_from`: add the edges one by one. -/
def addEdgesFrom (g : Graph) (es : List (String × String)) : Graph :=
  es.foldl addEdge g

/-- `DiGraph.remove_nodes_from` with a list of nodes: removes the listed
nodes and every edge incident to one of them. -/
def removeNodesFrom (g : Graph) (ns : List String) : Graph :=
  { nodes := g.nodes.filter (fun n => decide (n ∉ ns)),
    edges := g.edges.filter (fun e => decide (e.1 ∉ ns ∧ e.2 ∉ ns)) }

/-- `DiGraph.remove_nodes_from` with a Python `set` of nodes: only
membership in the set matters. -/
def removeNodesSet (g : Graph) (s : Finset String) : Graph :=
  { nodes := g.nodes.filter (fun n => decide (n ∉ s)),
    edges := g.edges.filter (fun e => decide (e.1 ∉ s ∧ e.2 ∉ s)) }

/-- `DiGraph.remove_edges_from`: removes the listed edges, keeping all
nodes. -/
def removeEdgesFrom (g : Graph) (es : List (String × String)) : Graph :=
  { g with edges := g.edges.filter (fun e => decide (e ∉ es)) }

/-- `DiGraph.reverse`: same nodes, every edge flipped. -/
def reverseGraph (g : Graph) : Graph :=
  { nodes := g.nodes, edges := g.edges.map (fun e => (e.2, e.1)) }

/-! ### Saturation: the computational core of `nx.descendants` and
`nx.node_connected_component`.

Both networkx calls compute closures of a single-source set under an
adjacency relation.  We embed them by a bounded iteration of a one-step
expansion, which provably reaches a fixpoint after `univ.card` rounds. -/

/-- One expansion round: add every element of `univ` adjacent (via `adj`)
to an element already in `s`. -/
def satStep (univ : Finset String) (adj : String → String → Bool) (s : Finset String) :
    Finset String :=
  s ∪ univ.filter (fun v => ∃ u ∈ s, adj u v = true)

/-- `n` expansion rounds. -/
def satN (univ : Finset String) (adj : String → String → Bool) :
    Nat → Finset String → Finset String
  | 0, s => s
  | n + 1, s => satN univ adj n (satStep univ adj s)

/-- The closure of `s` under `adj` within `univ`: `univ.card` rounds always
suffice to reach the fixpoint. -/
def satClosure (univ : Finset String) (adj : String → String → Bool) (s : Finset String) :
    Finset String :=
  satN univ adj univ.card s

theorem subset_satStep (univ : Finset String) (adj : String → String → Bool)
    (s : Finset String) : s ⊆ satStep univ adj s :=
  Finset.subset_union_left

theorem satStep_subset (univ : Finset String) (adj : String → String → Bool)
    (s : Finset String) : satStep univ adj s ⊆ s ∪ univ := by
  unfold satStep
  exact Finset.union_subset_union (le_refl s) (Finset.filter_subset _ _)

theorem subset_satN (univ : Finset String) (adj : String → String → Bool)
    (n : Nat) (s : Finset String) : s ⊆ satN univ adj n s := by
  induction n generalizing s with
  | zero => exact le_refl s
  | succ n ih =>
    exact (subset_satStep univ adj s).trans (ih (satStep univ adj s))

theorem satN_fixed (univ : Finset String) (adj : String → String → Bool)
    (n : Nat) (s : Finset String) (h : satStep univ adj s = s) :
    satN univ adj n s = s := by
  induction n with
  | zero => rfl
  | succ n ih => simp [satN, h, ih]

/-- After enough rounds (any `n ≥ (univ \ s).card`), the iteration has
reached a fixpoint of `satStep`. -/
theorem satStep_satN (univ : Finset String) (adj : String → String → Bool) :
    ∀ (n : Nat) (s : Finset String), (univ \ s).card ≤ n →
      satStep univ adj (satN univ adj n s) = satN univ adj n s := by
  intro n
  induction n with
  | zero =>
    intro s hcard
    have hsub : univ ⊆ s := by
      intro x hx
      by_contra hxs
      have : x ∈ univ \ s := Finset.mem_sdiff.mpr ⟨hx, hxs⟩
      have : 0 < (univ \ s).card := Finset.card_pos.mpr ⟨x, this⟩
      omega
    have : satStep univ adj s = s := by
      apply Finset.Subset.antisymm
      · exact (satStep_subset univ adj s).trans (by
          exact Finset.union_subset (le_refl s) hsub)
      · exact subset_satStep univ adj s
    simp [satN, this]
  | succ n ih =>
    intro s hcard
    by_cases hfix : satStep univ adj s = s
    · rw [satN_fixed univ adj _ s hfix, hfix]
    · have hlt : (univ \ satStep univ adj s).card < (univ \ s).card := by
        have hss : s ⊆ satStep univ adj s := subset_satStep univ adj s
        have hmono : univ \ satStep univ adj s ⊆ univ \ s :=
          Finset.sdiff_subset_sdiff (le_refl univ) hss
        have hstrict : ∃ x, x ∈ univ \ s ∧ x ∉ univ \ satStep univ adj s := by
          obtain ⟨x, hx₁, hx₂⟩ : ∃ x, x ∈ satStep univ adj s ∧ x ∉ s := by
            by_contra hall
            push_neg at hall
            exact hfix (Finset.Subset.antisymm (fun x hx => hall x hx)
              (subset_satStep univ adj s))
          have hxu : x ∈ univ := by
            have := satStep_subset univ adj s hx₁
            rcases Finset.mem_union.mp this with h | h
            · exact absurd h hx₂
            · exact h
          exact ⟨x, Finset.mem_sdiff.mpr ⟨hxu, hx₂⟩,
            fun hc => (Finset.mem_sdiff.mp hc).2 hx₁⟩
        obtain ⟨x, hx₁, hx₂⟩ := hstrict
        exact Finset.card_lt_card (Finset.ssubset_iff_of_subset hmono |>.mpr ⟨x, hx₁, hx₂⟩)
      have : (univ \ satStep univ adj s).card ≤ n := by omega
      simpa [satN] using ih (satStep univ adj s) this

theorem satStep_satClosure (univ : Finset String) (adj : String → String → Bool)
    (s : Finset String) :
    satStep univ adj (satClosure univ adj s) = satClosure univ adj s := by
  apply satStep_satN
  exact le_trans (Finset.card_le_card (Finset.sdiff_subset)) (le_refl univ.card)

/-- The one-step relation that saturation closes under: an `adj`-edge whose
endpoint lies in `univ`. -/
def StepRel (univ : Finset String) (adj : String → String → Bool) (u v : String) : Prop :=
  adj u v = true ∧ v ∈ univ

theorem satN_sound (univ : Finset String) (adj : String → String → Bool)
    (P : String → Prop)
    (hstep : ∀ u v, P u → StepRel univ adj u v → P v) :
    ∀ (n : Nat) (s : Finset String), (∀ x ∈ s, P x) →
      ∀ x ∈ satN univ adj n s, P x := by
  intro n
  induction n with
  | zero => exact fun s hs => hs
  | succ n ih =>
    intro s hs
    apply ih
    intro x hx
    rcases Finset.mem_union.mp hx with h | h
    · exact hs x h
    · obtain ⟨hxu, u, hu, hadj⟩ := Finset.mem_filter.mp h
      exact hstep u x (hs u hu) ⟨hadj, hxu⟩

/-- Everything in the closure of `{t}` is `StepRel`-reachable from `t`. -/
theorem satClosure_sound (univ : Finset String) (adj : String → String → Bool)
    (t x : String) (hx : x ∈ satClosure univ adj {t}) :
    Relation.ReflTransGen (StepRel univ adj) t x := by
  refine satN_sound univ adj (Relation.ReflTransGen (StepRel univ adj) t) ?_ univ.card {t} ?_ x hx
  · exact fun u v hu huv => Relation.ReflTransGen.tail hu huv
  · intro y hy
    rw [Finset.mem_singleton.mp hy]

/-- Everything `StepRel`-reachable from `t` is in the closure of `{t}`. -/
theorem satClosure_complete (univ : Finset String) (adj : String → String → Bool)
    (t x : String) (hreach : Relation.ReflTransGen (StepRel univ adj) t x) :
    x ∈ satClosure univ adj {t} := by
  induction hreach with
  | refl =>
    exact subset_satN univ adj univ.card {t} (Finset.mem_singleton_self t)
  | tail hab hbc ih =>
    rw [← satStep_satClosure univ adj {t}]
    apply Finset.mem_union_right
    exact Finset.mem_filter.mpr ⟨hbc.2, _, ih, hbc.1⟩

theorem satClosure_iff (univ : Finset String) (adj : String → String → Bool)
    (t x : String) :
    x ∈ satClosure univ adj {t} ↔ Relation.ReflTransGen (StepRel univ adj) t x :=
  ⟨satClosure_sound univ adj t x, satClosure_complete univ adj t x⟩

/-- The closure of `{t}` stays inside `univ ∪ {t}`. -/
theorem satClosure_subset (univ : Finset String) (adj : String → String → Bool)
    (t x : String) (hx : x ∈ satClosure univ adj {t}) : x ∈ univ ∨ x = t := by
  have h := satClosure_sound univ adj t x hx
  induction h with
  | refl => exact Or.inr rfl
  | tail hab hbc ih => exact Or.inl hbc.2

/-! ### `_filter` (dvc/commands/dag.py)

`nx.descendants(graph, target)` returns the set of nodes reachable from
`target` by following edges forward (the source excluded); the code then
`add`s the target itself, so per target the contribution is exactly the
reflexive-transitive closure, which we compute with `satClosure` seeded at
`{target}`.  `nx.node_connected_component(undirected, target)` is the same
closure under the symmetrised adjacency.  Both networkx calls raise when
`target` is not a node of the graph they are given; `_filter` therefore
returns `none` in that case. -/

/-- Forward adjacency of the directed graph, `(u, v) ∈ edges`. -/
def depAdj (g : Graph) (u v : String) : Bool :=
  decide ((u, v) ∈ g.edges)

/-- Adjacency of `graph.to_undirected()`. -/
def undirAdj (g : Graph) (u v : String) : Bool :=
  decide ((u, v) ∈ g.edges) || decide ((v, u) ∈ g.edges)

/-- `_filter(graph, targets, full)`: on an empty target list return the
graph itself; otherwise copy, in ancestors-only mode drop every node not in
some target's descendant set (with the target added), then drop every node
outside the undirected connected components of the targets. -/
def _filter (g : Graph) (targets : List String) (full : Bool) : Option Graph :=
  if targets.isEmpty then some g
  else if targets.all (fun t => decide (t ∈ g.nodes)) then
    let new1 : Graph :=
      if !full then
        let descendants : Finset String :=
          targets.foldl (fun acc t => acc ∪ satClosure g.nodes.toFinset (depAdj g) {t}) ∅
        removeNodesSet g (g.nodes.toFinset \ descendants)
      else g
    let connected : Finset String :=
      targets.foldl (fun acc t => acc ∪ satClosure new1.nodes.toFinset (undirAdj new1) {t}) ∅
    some (removeNodesSet new1 (new1.nodes.toFinset \ connected))
  else none

/-! ### Spec-side relations for the filtering claims -/

/-- Dependency adjacency as a relation: the edge `(u, v)` is present. -/
def Adj (g : Graph) (u v : String) : Prop := (u, v) ∈ g.edges

/-- `v` is in the upstream set of `t`: `t` itself or forward-reachable
from `t` along dependency edges. -/
def UpstreamOf (g : Graph) (t v : String) : Prop :=
  Relation.ReflTransGen (Adj g) t v

/-- Undirected adjacency as a relation. -/
def UndirAdjRel (g : Graph) (u v : String) : Prop :=
  (u, v) ∈ g.edges ∨ (v, u) ∈ g.edges

/-- `v` is weakly connected to `t` in `g`. -/
def WeaklyConnected (g : Graph) (t v : String) : Prop :=
  Relation.ReflTransGen (UndirAdjRel g) t v

/-- `v` is a node of the reduced (ancestors-only) graph: a node of `g`
upstream-reachable from some target. -/
def InUpstreamUnion (g : Graph) (targets : List String) (v : String) : Prop :=
  v ∈ g.nodes ∧ ∃ t ∈ targets, UpstreamOf g t v

/-- `v` is weakly connected to `t` inside the reduced graph: a chain of
undirected edges of `g` all of whose endpoints lie in the reduced node
set. -/
def ConnInReduced (g : Graph) (targets : List String) (t v : String) : Prop :=
  Relation.ReflTransGen
    (fun a b => InUpstreamUnion g targets a ∧ InUpstreamUnion g targets b ∧ UndirAdjRel g a b)
    t v

/-! ### Membership lemmas -/

theorem mem_nodes_removeNodesSet (g : Graph) (s : Finset String) (x : String) :
    x ∈ (removeNodesSet g s).nodes ↔ x ∈ g.nodes ∧ x ∉ s := by
  simp [removeNodesSet, List.mem_filter]

theorem mem_edges_removeNodesSet (g : Graph) (s : Finset String) (e : String × String) :
    e ∈ (removeNodesSet g s).edges ↔ e ∈ g.edges ∧ e.1 ∉ s ∧ e.2 ∉ s := by
  simp [removeNodesSet, List.mem_filter]

theorem wellFormed_removeNodesSet (g : Graph) (s : Finset String)
    (hwf : WellFormed g) : WellFormed (removeNodesSet g s) := by
  intro e he
  obtain ⟨he, h1, h2⟩ := (mem_edges_removeNodesSet g s e).mp he
  exact ⟨(mem_nodes_removeNodesSet g s e.1).mpr ⟨(hwf e he).1, h1⟩,
    (mem_nodes_removeNodesSet g s e.2).mpr ⟨(hwf e he).2, h2⟩⟩

theorem mem_foldl_union (f : String → Finset String) (l : List String)
    (acc : Finset String) (x : String) :
    x ∈ l.foldl (fun a t => a ∪ f t) acc ↔ x ∈ acc ∨ ∃ t ∈ l, x ∈ f t := by
  induction l generalizing acc with
  | nil => simp
  | cons h t ih =>
    simp only [List.foldl_cons, ih, Finset.mem_union, List.mem_cons]
    constructor
    · rintro (⟨ha | hf⟩ | ⟨u, hu, hx⟩)
      · exact Or.inl ha
      · exact Or.inr ⟨h, Or.inl rfl, hf⟩
      · exact Or.inr ⟨u, Or.inr hu, hx⟩
    · rintro (ha | ⟨u, rfl | hu, hx⟩)
      · exact Or.inl (Or.inl ha)
      · exact Or.inl (Or.inr hx)
      · exact Or.inr ⟨u, hu, hx⟩

theorem stepRel_dep_iff (g : Graph) (hwf : WellFormed g) (u v : String) :
    StepRel g.nodes.toFinset (depAdj g) u v ↔ Adj g u v := by
  simp only [StepRel, depAdj, decide_eq_true_eq, Adj, List.mem_toFinset]
  constructor
  · rintro ⟨h, _⟩
    exact h
  · intro h
    exact ⟨h, (hwf _ h).2⟩

theorem stepRel_undir_iff (g : Graph) (hwf : WellFormed g) (u v : String) :
    StepRel g.nodes.toFinset (undirAdj g) u v ↔ UndirAdjRel g u v := by
  simp only [StepRel, undirAdj, Bool.or_eq_true, decide_eq_true_eq, UndirAdjRel,
    List.mem_toFinset]
  constructor
  · rintro ⟨h, _⟩
    exact h
  · intro h
    refine ⟨h, ?_⟩
    rcases h with h | h
    · exact (hwf _ h).2
    · exact (hwf _ h).1

theorem reflTransGen_iff_of_iff {α : Type} {r s : α → α → Prop}
    (h : ∀ a b, r a b ↔ s a b) (a b : α) :
    Relation.ReflTransGen r a b ↔ Relation.ReflTransGen s a b :=
  ⟨Relation.ReflTransGen.mono (fun x y hxy => (h x y).mp hxy),
   Relation.ReflTransGen.mono (fun x y hxy => (h x y).mpr hxy)⟩

/-- Characterisation of the accumulated `descendants` set of `_filter`. -/
theorem mem_descendants_iff (g : Graph) (hwf : WellFormed g) (targets : List String)
    (htg : ∀ t ∈ targets, t ∈ g.nodes) (x : String) :
    (x ∈ targets.foldl
        (fun acc t => acc ∪ satClosure g.nodes.toFinset (depAdj g) {t}) ∅) ↔
      x ∈ g.nodes ∧ ∃ t ∈ targets, UpstreamOf g t x := by
  rw [mem_foldl_union]
  simp only [Finset.not_mem_empty, false_or]
  constructor
  · rintro ⟨t, ht, hx⟩
    have hup : UpstreamOf g t x :=
      (reflTransGen_iff_of_iff (stepRel_dep_iff g hwf) t x).mp
        (satClosure_sound _ _ _ _ hx)
    refine ⟨?_, t, ht, hup⟩
    rcases satClosure_subset _ _ _ _ hx with h | h
    · exact List.mem_toFinset.mp h
    · exact h ▸ htg t ht
  · rintro ⟨hxn, t, ht, hup⟩
    exact ⟨t, ht, satClosure_complete _ _ _ _
      ((reflTransGen_iff_of_iff (stepRel_dep_iff g hwf) t x).mpr hup)⟩

/-- Characterisation of the accumulated `connected` set of `_filter`
(for any well-formed graph whose node set contains the targets). -/
theorem mem_connected_iff (g : Graph) (hwf : WellFormed g) (targets : List String)
    (htg : ∀ t ∈ targets, t ∈ g.nodes) (x : String) :
    (x ∈ targets.foldl
        (fun acc t => acc ∪ satClosure g.nodes.toFinset (undirAdj g) {t}) ∅) ↔
      x ∈ g.nodes ∧ ∃ t ∈ targets, WeaklyConnected g t x := by
  rw [mem_foldl_union]
  simp only [Finset.not_mem_empty, false_or]
  constructor
  · rintro ⟨t, ht, hx⟩
    have hconn : WeaklyConnected g t x :=
      (reflTransGen_iff_of_iff (stepRel_undir_iff g hwf) t x).mp
        (satClosure_sound _ _ _ _ hx)
    refine ⟨?_, t, ht, hconn⟩
    rcases satClosure_subset _ _ _ _ hx with h | h
    · exact List.mem_toFinset.mp h
    · exact h ▸ htg t ht
  · rintro ⟨hxn, t, ht, hconn⟩
    exact ⟨t, ht, satClosure_complete _ _ _ _
      ((reflTransGen_iff_of_iff (stepRel_undir_iff g hwf) t x).mpr hconn)⟩

theorem mem_nodes_remove_sdiff (g : Graph) (S : Finset String) (x : String) :
    x ∈ (removeNodesSet g (g.nodes.toFinset \ S)).nodes ↔ x ∈ g.nodes ∧ x ∈ S := by
  rw [mem_nodes_removeNodesSet]
  simp only [Finset.mem_sdiff, List.mem_toFinset, not_and, not_not]
  constructor
  · rintro ⟨h1, h2⟩
    exact ⟨h1, h2 h1⟩
  · rintro ⟨h1, h2⟩
    exact ⟨h1, fun _ => h2⟩

theorem mem_edges_remove_sdiff (g : Graph) (S : Finset String) (e : String × String)
    (hwf : WellFormed g) :
    e ∈ (removeNodesSet g (g.nodes.toFinset \ S)).edges ↔
      e ∈ g.edges ∧ e.1 ∈ S ∧ e.2 ∈ S := by
  rw [mem_edges_removeNodesSet]
  simp only [Finset.mem_sdiff, List.mem_toFinset, not_and, not_not]
  constructor
  · rintro ⟨he, h1, h2⟩
    exact ⟨he, h1 (hwf e he).1, h2 (hwf e he).2⟩
  · rintro ⟨he, h1, h2⟩
    exact ⟨he, fun _ => h1, fun _ => h2⟩

/-- Ancestors-only mode of `_filter`: the node set of the result is the
union of the targets' upstream sets, further cut down to the nodes weakly
connected to a target inside that reduced graph. -/
theorem filter_ancestors_nodes (g : Graph) (targets : List String)
    (hwf : WellFormed g) (hne : targets ≠ [])
    (htg : ∀ t ∈ targets, t ∈ g.nodes) :
    ∃ res, _filter g targets false = some res ∧
      ∀ v, v ∈ res.nodes ↔
        (v ∈ g.nodes ∧ (∃ t ∈ targets, UpstreamOf g t v) ∧
          ∃ t ∈ targets, ConnInReduced g targets t v) := by
  have hne' : targets.isEmpty = false := by
    cases targets with
    | nil => exact absurd rfl hne
    | cons a l => rfl
  have hall : targets.all (fun t => decide (t ∈ g.nodes)) = true := by
    rw [List.all_eq_true]
    exact fun t ht => decide_eq_true (htg t ht)
  have hres : _filter g targets false = some
      (removeNodesSet
        (removeNodesSet g (g.nodes.toFinset \
          targets.foldl (fun acc t => acc ∪ satClosure g.nodes.toFinset (depAdj g) {t}) ∅))
        ((removeNodesSet g (g.nodes.toFinset \
          targets.foldl (fun acc t => acc ∪ satClosure g.nodes.toFinset (depAdj g) {t}) ∅)).nodes.toFinset \
          targets.foldl (fun acc t => acc ∪ satClosure
            (removeNodesSet g (g.nodes.toFinset \
              targets.foldl (fun acc t => acc ∪ satClosure g.nodes.toFinset (depAdj g) {t}) ∅)).nodes.toFinset
            (undirAdj (removeNodesSet g (g.nodes.toFinset \
              targets.foldl (fun acc t => acc ∪ satClosure g.nodes.toFinset (depAdj g) {t}) ∅))) {t}) ∅)) := by
    simp only [_filter, hne', hall, Bool.not_false, if_true, Bool.false_eq_true, if_false]
  set D : Finset String :=
    targets.foldl (fun acc t => acc ∪ satClosure g.nodes.toFinset (depAdj g) {t}) ∅ with hD
  set new1 : Graph := removeNodesSet g (g.nodes.toFinset \ D) with hnew1
  set C : Finset String :=
    targets.foldl (fun acc t => acc ∪ satClosure new1.nodes.toFinset (undirAdj new1) {t}) ∅
    with hC
  refine ⟨removeNodesSet new1 (new1.nodes.toFinset \ C), hres, ?_⟩
  have hDmem : ∀ x, x ∈ D ↔ x ∈ g.nodes ∧ ∃ t ∈ targets, UpstreamOf g t x := by
    intro x
    rw [hD]
    exact mem_descendants_iff g hwf targets htg x
  have hnew1nodes : ∀ x, x ∈ new1.nodes ↔ InUpstreamUnion g targets x := by
    intro x
    rw [hnew1, mem_nodes_remove_sdiff]
    unfold InUpstreamUnion
    rw [hDmem x]
    constructor
    · rintro ⟨h1, _, h2⟩
      exact ⟨h1, h2⟩
    · rintro ⟨h1, h2⟩
      exact ⟨h1, h1, h2⟩
  have hwf1 : WellFormed new1 := wellFormed_removeNodesSet g _ hwf
  have htg1 : ∀ t ∈ targets, t ∈ new1.nodes := by
    intro t ht
    exact (hnew1nodes t).mpr ⟨htg t ht, t, ht, Relation.ReflTransGen.refl⟩
  have hadj1 : ∀ a b, UndirAdjRel new1 a b ↔
      (InUpstreamUnion g targets a ∧ InUpstreamUnion g targets b ∧ UndirAdjRel g a b) := by
    intro a b
    unfold UndirAdjRel
    rw [hnew1]
    rw [mem_edges_remove_sdiff g D (a, b) hwf, mem_edges_remove_sdiff g D (b, a) hwf]
    unfold InUpstreamUnion
    constructor
    · rintro (⟨he, h1, h2⟩ | ⟨he, h2, h1⟩)
      · exact ⟨⟨((hDmem a).mp h1).1, ((hDmem a).mp h1).2⟩,
          ⟨((hDmem b).mp h2).1, ((hDmem b).mp h2).2⟩, Or.inl he⟩
      · exact ⟨⟨((hDmem a).mp h1).1, ((hDmem a).mp h1).2⟩,
          ⟨((hDmem b).mp h2).1, ((hDmem b).mp h2).2⟩, Or.inr he⟩
    · rintro ⟨ha, hb, he | he⟩
      · exact Or.inl ⟨he, (hDmem a).mpr ha, (hDmem b).mpr hb⟩
      · exact Or.inr ⟨he, (hDmem b).mpr hb, (hDmem a).mpr ha⟩
  have hconn1 : ∀ t v, WeaklyConnected new1 t v ↔ ConnInReduced g targets t v := by
    intro t v
    exact reflTransGen_iff_of_iff hadj1 t v
  have hCmem : ∀ x, x ∈ C ↔ x ∈ new1.nodes ∧ ∃ t ∈ targets, WeaklyConnected new1 t x := by
    intro x
    rw [hC]
    exact mem_connected_iff new1 hwf1 targets htg1 x
  intro v
  rw [mem_nodes_remove_sdiff, hCmem v, hnew1nodes v]
  unfold InUpstreamUnion
  constructor
  · rintro ⟨⟨h1, h2⟩, _, t, ht, hc⟩
    exact ⟨h1, h2, t, ht, (hconn1 t v).mp hc⟩
  · rintro ⟨h1, h2, t, ht, hc⟩
    exact ⟨⟨h1, h2⟩, ⟨h1, h2⟩, t, ht, (hconn1 t v).mpr hc⟩

/-- Full mode of `_filter`: the node set of the result is the node set of
the graph cut down to the nodes weakly connected to a target. -/
theorem filter_full_nodes (g : Graph) (targets : List String)
    (hwf : WellFormed g) (hne : targets ≠ [])
    (htg : ∀ t ∈ targets, t ∈ g.nodes) :
    ∃ res, _filter g targets true = some res ∧
      ∀ v, v ∈ res.nodes ↔
        (v ∈ g.nodes ∧ ∃ t ∈ targets, WeaklyConnected g t v) := by
  have hne' : targets.isEmpty = false := by
    cases targets with
    | nil => exact absurd rfl hne
    | cons a l => rfl
  have hall : targets.all (fun t => decide (t ∈ g.nodes)) = true := by
    rw [List.all_eq_true]
    exact fun t ht => decide_eq_true (htg t ht)
  have hres : _filter g targets true = some
      (removeNodesSet g (g.nodes.toFinset \
        targets.foldl (fun acc t => acc ∪ satClosure g.nodes.toFinset (undirAdj g) {t}) ∅)) := by
    simp only [_filter, hne', hall, Bool.not_true, if_true, Bool.false_eq_true, if_false]
  refine ⟨_, hres, ?_⟩
  intro v
  rw [mem_nodes_remove_sdiff, mem_connected_iff g hwf targets htg v]
  constructor
  · rintro ⟨h1, _, h2⟩
    exact ⟨h1, h2⟩
  · rintro ⟨h1, h2⟩
    exact ⟨h1, h1, h2⟩

/-- Claim C2: for a well-formed graph and a non-empty target set of nodes
of the graph, ancestors-only filtering keeps exactly the nodes in some
target's upstream set that are weakly connected to a target inside the
reduced graph, and full filtering keeps exactly the nodes weakly connected
to a target (no node is removed merely for being unreachable from a
target). -/
theorem filter_node_set_spec (g : Graph) (targets : List String) (full : Bool)
    (hwf : WellFormed g) (hne : targets ≠ [])
    (htg : ∀ t ∈ targets, t ∈ g.nodes) :
    ∃ res, _filter g targets full = some res ∧
      ((full = false → ∀ v, v ∈ res.nodes ↔
          (v ∈ g.nodes ∧ (∃ t ∈ targets, UpstreamOf g t v) ∧
            ∃ t ∈ targets, ConnInReduced g targets t v)) ∧
       (full = true → ∀ v, v ∈ res.nodes ↔
          (v ∈ g.nodes ∧ ∃ t ∈ targets, WeaklyConnected g t v))) := by
  cases full with
  | false =>
    obtain ⟨res, h1, h2⟩ := filter_ancestors_nodes g targets hwf hne htg
    exact ⟨res, h1, fun _ => h2, fun h => absurd h (by simp)⟩
  | true =>
    obtain ⟨res, h1, h2⟩ := filter_full_nodes g targets hwf hne htg
    exact ⟨res, h1, fun h => absurd h (by simp), fun _ => h2⟩

/-- The three-stage chain `X → Y → Z` of the spec's end-to-end scenario. -/
def gChain : Graph := ⟨["X", "Y", "Z"], [("X", "Y"), ("Y", "Z")]⟩

theorem filter_node_set_spec_witness :
    (WellFormed gChain ∧ (["Y"] : List String) ≠ [] ∧
      (∀ t ∈ (["Y"] : List String), t ∈ gChain.nodes)) ∧
    ∃ res, _filter gChain ["Y"] false = some res ∧
      ((false = false → ∀ v, v ∈ res.nodes ↔
          (v ∈ gChain.nodes ∧ (∃ t ∈ (["Y"] : List String), UpstreamOf gChain t v) ∧
            ∃ t ∈ (["Y"] : List String), ConnInReduced gChain ["Y"] t v)) ∧
       (false = true → ∀ v, v ∈ res.nodes ↔
          (v ∈ gChain.nodes ∧ ∃ t ∈ (["Y"] : List String), WeaklyConnected gChain t v))) :=
  ⟨⟨by decide, by decide, by decide⟩,
    filter_node_set_spec gChain ["Y"] false (by decide) (by decide) (by decide)⟩

/-- Claim C3: filtering with an empty target list returns the input graph
unchanged (the very same node list and edge list). -/
theorem filter_empty_targets_identity (g : Graph) (full : Bool) :
    _filter g [] full = some g := by
  simp [_filter]

/-! ### Python string operations

The embeddings below work on the character lists underlying `String`, by
structural recursion, mirroring the Python semantics of `str.endswith`,
`in` (substring containment) and `str.split(sep)[0]` for a non-empty
separator. -/

/-- Does `needle` occur as a contiguous run inside the list? (Python
`needle in haystack` on strings.) -/
def subOccurs (needle : List Char) : List Char → Bool
  | [] => needle.isEmpty
  | c :: rest => needle.isPrefixOf (c :: rest) || subOccurs needle rest

/-- Python `s.endswith(suf)`. -/
def pyEndsWith (s suf : String) : Bool :=
  suf.data.isSuffixOf s.data

/-- Python `sub in s`. -/
def pyContains (s sub : String) : Bool :=
  subOccurs sub.data s.data

/-- The part of the list before the first occurrence of the (non-empty)
separator; the whole list when the separator does not occur. -/
def splitHeadAux (sep : List Char) : List Char → List Char
  | [] => []
  | c :: rest => if sep.isPrefixOf (c :: rest) then [] else c :: splitHeadAux sep rest

/-- Python `s.split(sep)[0]` for a non-empty separator. -/
def pySplitHead (s sep : String) : String :=
  String.mk (splitHeadAux sep.data s.data)

/-! ### `_collapse_foreach_matrix` (dvc/commands/dag.py) -/

/-- Modelled from the spec: `dvc.parsing.JOIN` (the module is not under
`src/`), the reserved join token delimiting the template name of a
generated foreach/matrix stage; the spec's examples (`train@a`, `train@b`
collapse to `train`) fix it as `"@"`. -/
def JOIN : String := "@"

/-- `_is_foreach_matrix_stage(node, join_string)`: a node is a generated
stage when it does not end with the `.dvc` metafile suffix and contains
the join token. -/
def _is_foreach_matrix_stage (node join_string : String) : Bool :=
  if pyEndsWith node ".dvc" then false
  else pyContains node join_string

/-- `_collapse_foreach_matrix_get_nodes`: the template names to add and
the generated nodes to remove (both Python sets; we keep deduplicated
lists, only membership is consumed downstream). -/
def _collapse_foreach_matrix_get_nodes (g : Graph) : List String × List String :=
  let gen := g.nodes.filter (fun n => _is_foreach_matrix_stage n JOIN)
  ((gen.map (fun n => pySplitHead n JOIN)).dedup, gen.dedup)

/-- Rewrite one endpoint: a generated stage is replaced by its template
name (`node.split(JOIN)[0]`), anything else is kept. -/
def collapseEndpoint (x : String) : String :=
  if _is_foreach_matrix_stage x JOIN then pySplitHead x JOIN else x

/-- Does the edge touch a generated stage (the `_replace` flag)? -/
def edgeTouchesGenerated (e : String × String) : Bool :=
  _is_foreach_matrix_stage e.1 JOIN || _is_foreach_matrix_stage e.2 JOIN

/-- `_collapse_foreach_matrix_get_edges`: the rewritten edges to add and
the original touched edges to remove. -/
def _collapse_foreach_matrix_get_edges (g : Graph) :
    List (String × String) × List (String × String) :=
  let touched := g.edges.filter edgeTouchesGenerated
  ((touched.map (fun e => (collapseEndpoint e.1, collapseEndpoint e.2))).dedup,
    touched.dedup)

/-- `_collapse_foreach_matrix(graph)`: copy, remove the touched edges, add
the template nodes, add the rewritten edges, and finally remove the
generated nodes. -/
def _collapse_foreach_matrix (g : Graph) : Graph :=
  let p1 := _collapse_foreach_matrix_get_nodes g
  let p2 := _collapse_foreach_matrix_get_edges g
  let new_graph := g
  let new_graph := removeEdgesFrom new_graph p2.2
  let new_graph := addNodesFrom new_graph p1.1
  let new_graph := addEdgesFrom new_graph p2.1
  removeNodesFrom new_graph p1.2

theorem edges_addNode (g : Graph) (n : String) : (addNode g n).edges = g.edges := by
  unfold addNode
  split <;> rfl

theorem edges_addNodesFrom (g : Graph) (ns : List String) :
    (addNodesFrom g ns).edges = g.edges := by
  induction ns generalizing g with
  | nil => rfl
  | cons a l ih => rw [addNodesFrom, List.foldl_cons, ← addNodesFrom, ih, edges_addNode]

theorem mem_edges_addEdge (g : Graph) (e f : String × String)
    (h : f ∈ g.edges ∨ f = e) : f ∈ (addEdge g e).edges := by
  simp only [addEdge]
  have hb : (addNode (addNode g e.1) e.2).edges = g.edges := by
    rw [edges_addNode, edges_addNode]
  split
  · rename_i hin
    rw [hb] at hin ⊢
    rcases h with h | h
    · exact h
    · exact h ▸ hin
  · simp only [hb, List.mem_append, List.mem_singleton]
    exact h

theorem mem_edges_addEdgesFrom (g : Graph) (es : List (String × String))
    (f : String × String) (h : f ∈ g.edges ∨ f ∈ es) :
    f ∈ (addEdgesFrom g es).edges := by
  induction es generalizing g with
  | nil =>
    rcases h with h | h
    · exact h
    · exact absurd h (List.not_mem_nil f)
  | cons a l ih =>
    rw [addEdgesFrom, List.foldl_cons, ← addEdgesFrom]
    apply ih
    rcases h with h | h
    · exact Or.inl (mem_edges_addEdge g a f (Or.inl h))
    · rcases List.mem_cons.mp h with h | h
      · exact Or.inl (mem_edges_addEdge g a f (Or.inr h))
      · exact Or.inr h

theorem mem_edges_removeNodesFrom (g : Graph) (ns : List String)
    (f : String × String) :
    f ∈ (removeNodesFrom g ns).edges ↔ f ∈ g.edges ∧ f.1 ∉ ns ∧ f.2 ∉ ns := by
  simp [removeNodesFrom, List.mem_filter]

theorem mem_nodes_removeNodesFrom (g : Graph) (ns : List String) (x : String) :
    x ∈ (removeNodesFrom g ns).nodes ↔ x ∈ g.nodes ∧ x ∉ ns := by
  simp [removeNodesFrom, List.mem_filter]

/-- Every node scheduled for removal by the collapse is a generated
stage. -/
theorem mem_nodes_to_remove_generated (g : Graph) (x : String)
    (hx : x ∈ (_collapse_foreach_matrix_get_nodes g).2) :
    _is_foreach_matrix_stage x JOIN = true := by
  unfold _collapse_foreach_matrix_get_nodes at hx
  simp only [List.mem_dedup, List.mem_filter] at hx
  exact hx.2

/-- A touched edge of the graph contributes its endpoint-wise rewriting to
the edges added by the collapse. -/
theorem mem_new_edges_of_touched (g : Graph) (e : String × String)
    (he : e ∈ g.edges) (ht : edgeTouchesGenerated e = true) :
    (collapseEndpoint e.1, collapseEndpoint e.2) ∈
      (_collapse_foreach_matrix_get_edges g).1 := by
  unfold _collapse_foreach_matrix_get_edges
  simp only [List.mem_dedup, List.mem_map]
  exact ⟨e, List.mem_filter.mpr ⟨he, ht⟩, rfl⟩

/-- An added edge whose endpoints are not generated stages survives to the
collapsed graph. -/
theorem mem_edges_collapse_of_new (g : Graph) (f : String × String)
    (hmem : f ∈ (_collapse_foreach_matrix_get_edges g).1)
    (hf1 : _is_foreach_matrix_stage f.1 JOIN = false)
    (hf2 : _is_foreach_matrix_stage f.2 JOIN = false) :
    f ∈ (_collapse_foreach_matrix g).edges := by
  unfold _collapse_foreach_matrix
  rw [mem_edges_removeNodesFrom]
  refine ⟨mem_edges_addEdgesFrom _ _ f (Or.inr hmem), ?_, ?_⟩
  · intro hc
    rw [mem_nodes_to_remove_generated g f.1 hc] at hf1
    exact Bool.true_eq_false.mp hf1
  · intro hc
    rw [mem_nodes_to_remove_generated g f.2 hc] at hf2
    exact Bool.true_eq_false.mp hf2

/-- Claim C4 counterexample: on the node set
`{"train@a", "train@b", "eval.dvc@x"}` the collapse does `not` keep the
node `eval.dvc@x` (it does not end with the `.dvc` suffix — the suffix is
followed by `@x` — so it is grouped like any generated stage). -/
theorem collapse_example_counterexample :
    "eval.dvc@x" ∉
      (_collapse_foreach_matrix ⟨["train@a", "train@b", "eval.dvc@x"], []⟩).nodes := by
  decide

/-- Claim C4 (amended): collapsing the graph with node set
`{"train@a", "train@b", "eval.dvc@x"}` (join token `@`, metafile suffix
`.dvc`) yields the node set `{"train", "eval.dvc"}`: the two `train@`
nodes merge into the template `train`, and `eval.dvc@x`, whose name does
not end with the metafile suffix, merges into the template `eval.dvc`. -/
theorem collapse_example_amended :
    ((_collapse_foreach_matrix ⟨["train@a", "train@b", "eval.dvc@x"], []⟩).nodes).toFinset
      = {"train", "eval.dvc"} := by
  decide

/-- Claim C5: every graph containing the edge `("train@a", "prepare")`
collapses it to `("train", "prepare")`, and every graph containing the
edge `("train@a", "train@b")` collapses it to the self-loop
`("train", "train")`. -/
theorem collapse_edge_rewrite (g g' : Graph)
    (h1 : ("train@a", "prepare") ∈ g.edges)
    (h2 : ("train@a", "train@b") ∈ g'.edges) :
    ("train", "prepare") ∈ (_collapse_foreach_matrix g).edges ∧
    ("train", "train") ∈ (_collapse_foreach_matrix g').edges := by
  constructor
  · have := mem_new_edges_of_touched g ("train@a", "prepare") h1 (by decide)
    rw [show (collapseEndpoint "train@a", collapseEndpoint "prepare")
        = ("train", "prepare") by decide] at this
    exact mem_edges_collapse_of_new g _ this (by decide) (by decide)
  · have := mem_new_edges_of_touched g' ("train@a", "train@b") h2 (by decide)
    rw [show (collapseEndpoint "train@a", collapseEndpoint "train@b")
        = ("train", "train") by decide] at this
    exact mem_edges_collapse_of_new g' _ this (by decide) (by decide)

theorem collapse_edge_rewrite_witness :
    (("train@a", "prepare") ∈
        (Graph.mk ["train@a", "prepare"] [("train@a", "prepare")]).edges ∧
     ("train@a", "train@b") ∈
        (Graph.mk ["train@a", "train@b"] [("train@a", "train@b")]).edges) ∧
    (("train", "prepare") ∈
        (_collapse_foreach_matrix ⟨["train@a", "prepare"], [("train@a", "prepare")]⟩).edges ∧
     ("train", "train") ∈
        (_collapse_foreach_matrix ⟨["train@a", "train@b"], [("train@a", "train@b")]⟩).edges) :=
  ⟨⟨by decide, by decide⟩, collapse_edge_rewrite _ _ (by decide) (by decide)⟩

/-! ### `_quote_label` and `_show_dot` (dvc/commands/dag.py) -/

/-- `_quote_label(node)`: wrap the label in double quotes unless it
already starts or ends with one.  Python evaluates
`label[0] != '"' and label[-1] != '"'`; on the empty label `label[0]`
raises `IndexError`, which we model as `none`. -/
def _quote_label (node : String) : Option String :=
  if h : node.data = [] then none
  else if node.data.head h = '"' then some node
  else if node.data.getLast h = '"' then some node
  else some ("\"" ++ node ++ "\"")

/-- Quote both endpoints of an edge (what relabeling does to each edge). -/
def quoteEdge (e : String × String) : Option (String × String) := do
  let a ← _quote_label e.1
  let b ← _quote_label e.2
  pure (a, b)

/-- Apply a fallible function to every element, failing if any application
fails. -/
def mapOpt {α β : Type} (f : α → Option β) : List α → Option (List β)
  | [] => some []
  | a :: l => do
    let b ← f a
    let bs ← mapOpt f l
    pure (b :: bs)

/-- `nx.relabel_nodes(graph, _quote_label, copy=False)`: every node is
replaced by its image and every edge endpoint rewritten (distinct nodes
with the same image merge, set semantics); a failing `_quote_label`
propagates as `none`. -/
def relabelQuote (g : Graph) : Option Graph := do
  let ns ← mapOpt _quote_label g.nodes
  let es ← mapOpt quoteEdge g.edges
  pure ⟨ns.dedup, es.dedup⟩

/-- Modelled from the spec: `networkx.drawing.nx_pydot.write_dot` (an
external library consumed through a narrow interface) emits standard
Graphviz DOT text for exactly the graph it is given — a declaration line
per node and a line `u -> v;` per edge, node names emitted verbatim (the
caller pre-quotes them).  We keep the emitted lines as a list; the file
contents are their newline join. -/
def writeDot (g : Graph) : List String :=
  ["digraph  \x7b"] ++ g.nodes.map (fun n => n ++ ";")
    ++ g.edges.map (fun e => e.1 ++ " -> " ++ e.2 ++ ";") ++ ["\x7d"]

/-- `_show_dot(graph)`: relabel the nodes of `graph` in place with
`_quote_label` (`copy=False`), then write the DOT text of the reversed
graph (`graph.reverse()` copies).  Returns the emitted lines together
with the post-call state of the argument (the relabeled graph); `none`
models the `IndexError` raised by `_quote_label` on an empty label. -/
def _show_dot (g : Graph) : Option (List String × Graph) := do
  let relabeled ← relabelQuote g
  pure (writeDot (reverseGraph relabeled), relabeled)

/-! ### Post-call state of the input graph (frame claims)

The Python functions receive a mutable `DiGraph`.  Each `_post` definition
records the state of that argument after the call, read off from the
source: `_filter` and `_collapse_foreach_matrix` mutate only their private
`new_graph = graph.copy()`, `_show_mermaid` and `_show_ascii` only read,
while `_show_dot` relabels the argument itself via
`nx.relabel_nodes(..., copy=False)`. -/

def _filter_post (g : Graph) (_targets : List String) (_full : Bool) : Graph := g

def _collapse_foreach_matrix_post (g : Graph) : Graph := g

def _show_mermaid_post (g : Graph) : Graph := g

def _show_ascii_post (g : Graph) : Graph := g

def _show_dot_post (g : Graph) : Option Graph := relabelQuote g

/-! ### Frame, totality and DOT-content theorems -/

/-- Claim C6 counterexample: DOT rendering does not leave its input graph
unchanged — on the single-node graph `{"a"}` the post-call state of the
argument has node `"a"` replaced by `"\"a\""`. -/
theorem show_dot_mutates_input :
    _show_dot_post ⟨["a"], []⟩ ≠ some ⟨["a"], []⟩ := by
  decide

/-- Claim C6 (amended): filtering, collapsing and the ASCII and Mermaid
renderers leave the input graph they were given unchanged (they mutate at
most a private copy); DOT rendering instead relabels the input graph in
place, replacing every node by its quoted label. -/
theorem core_ops_input_state (g : Graph) (targets : List String) (full : Bool) :
    _filter_post g targets full = g ∧
    _collapse_foreach_matrix_post g = g ∧
    _show_mermaid_post g = g ∧
    _show_ascii_post g = g ∧
    _show_dot_post g = relabelQuote g :=
  ⟨rfl, rfl, rfl, rfl, rfl⟩

theorem quote_label_isSome_iff (s : String) : (_quote_label s).isSome ↔ s ≠ "" := by
  have hempty : s.data = [] ↔ s = "" := by
    constructor
    · intro h
      cases s
      cases h
      rfl
    · intro h
      simp [h]
  unfold _quote_label
  by_cases h : s.data = []
  · simp [h, hempty.mp h]
  · rw [dif_neg h]
    have : s ≠ "" := fun hc => h (hempty.mpr hc)
    split
    · simp [this]
    · split <;> simp [this]

theorem filter_isSome (g : Graph) (targets : List String) (full : Bool)
    (htg : ∀ t ∈ targets, t ∈ g.nodes) : (_filter g targets full).isSome := by
  unfold _filter
  cases he : targets.isEmpty with
  | true => simp
  | false =>
    have hall : targets.all (fun t => decide (t ∈ g.nodes)) = true := by
      rw [List.all_eq_true]
      exact fun t ht => decide_eq_true (htg t ht)
    simp [hall]

theorem mapOpt_isSome {α β : Type} (f : α → Option β) (l : List α)
    (h : ∀ x ∈ l, (f x).isSome) : (mapOpt f l).isSome := by
  induction l with
  | nil => rfl
  | cons a l ih =>
    obtain ⟨b, hb⟩ := Option.isSome_iff_exists.mp (h a (List.mem_cons_self a l))
    obtain ⟨bs, hbs⟩ :=
      Option.isSome_iff_exists.mp (ih (fun x hx => h x (List.mem_cons_of_mem a hx)))
    simp [mapOpt, hb, hbs]

theorem show_dot_isSome (g : Graph) (hwf : WellFormed g)
    (hnodes : ∀ n ∈ g.nodes, n ≠ "") : (_show_dot g).isSome := by
  have hq : ∀ n ∈ g.nodes, (_quote_label n).isSome :=
    fun n hn => (quote_label_isSome_iff n).mpr (hnodes n hn)
  have h1 : (mapOpt _quote_label g.nodes).isSome := mapOpt_isSome _ _ hq
  have h2 : (mapOpt quoteEdge g.edges).isSome := by
    apply mapOpt_isSome
    intro e he
    obtain ⟨a, ha⟩ := Option.isSome_iff_exists.mp (hq e.1 (hwf e he).1)
    obtain ⟨b, hb⟩ := Option.isSome_iff_exists.mp (hq e.2 (hwf e he).2)
    simp [quoteEdge, ha, hb]
  obtain ⟨ns, hns⟩ := Option.isSome_iff_exists.mp h1
  obtain ⟨es, hes⟩ := Option.isSome_iff_exists.mp h2
  simp [_show_dot, relabelQuote, hns, hes]

/-- Claim C7 counterexample: DOT rendering does not succeed for the empty
string node label — `_quote_label` indexes `label[0]` and fails. -/
theorem show_dot_empty_label_fails :
    _show_dot ⟨[""], []⟩ = none := by
  decide

/-- Claim C7 (amended): label quoting succeeds exactly on non-empty
labels; filtering completes for every graph and target list whose targets
are nodes of the graph; DOT rendering completes for every well-formed
graph all of whose node labels are non-empty.  (Collapsing and the ASCII
and Mermaid renderers are total functions of the graph by construction.) -/
theorem graph_ops_totality :
    (∀ s : String, (_quote_label s).isSome ↔ s ≠ "") ∧
    (∀ (g : Graph) (targets : List String) (full : Bool),
      (∀ t ∈ targets, t ∈ g.nodes) → (_filter g targets full).isSome) ∧
    (∀ g : Graph, WellFormed g → (∀ n ∈ g.nodes, n ≠ "") →
      (_show_dot g).isSome) :=
  ⟨quote_label_isSome_iff, filter_isSome, show_dot_isSome⟩

theorem graph_ops_totality_witness :
    ((∀ t ∈ (["a:b"] : List String), t ∈ (Graph.mk ["a:b"] []).nodes) ∧
      WellFormed (Graph.mk ["a:b"] []) ∧
      (∀ n ∈ (Graph.mk ["a:b"] []).nodes, n ≠ "") ∧ ("x" : String) ≠ "") ∧
    ((_filter ⟨["a:b"], []⟩ ["a:b"] false).isSome ∧
      (_show_dot ⟨["a:b"], []⟩).isSome ∧ (_quote_label "x").isSome) :=
  ⟨⟨by decide, by decide, by decide, by decide⟩,
    ⟨graph_ops_totality.2.1 ⟨["a:b"], []⟩ ["a:b"] false (by decide),
     graph_ops_totality.2.2 ⟨["a:b"], []⟩ (by decide) (by decide),
     (graph_ops_totality.1 "x").mpr (by decide)⟩⟩

theorem mapOpt_mem {α β : Type} (f : α → Option β) (l : List α) (l' : List β)
    (h : mapOpt f l = some l') (x : α) (hx : x ∈ l) :
    ∃ y, f x = some y ∧ y ∈ l' := by
  induction l generalizing l' with
  | nil => cases hx
  | cons a t ih =>
    unfold mapOpt at h
    cases hfa : f a with
    | none =>
      rw [hfa] at h
      simp at h
    | some b =>
      rw [hfa] at h
      cases ht : mapOpt f t with
      | none =>
        rw [ht] at h
        simp at h
      | some bs =>
        rw [ht] at h
        simp at h
        subst h
        rcases List.mem_cons.mp hx with rfl | hx
        · exact ⟨b, hfa, List.mem_cons_self b bs⟩
        · obtain ⟨y, hy1, hy2⟩ := ih bs ht hx
          exact ⟨y, hy1, List.mem_cons_of_mem b hy2⟩

/-- Destructure a successful `relabelQuote`. -/
theorem relabelQuote_eq (g rg : Graph) (h : relabelQuote g = some rg) :
    ∃ ns es, mapOpt _quote_label g.nodes = some ns ∧
      mapOpt quoteEdge g.edges = some es ∧ rg = ⟨ns.dedup, es.dedup⟩ := by
  unfold relabelQuote at h
  cases h1 : mapOpt _quote_label g.nodes with
  | none =>
    rw [h1] at h
    simp at h
  | some ns =>
    rw [h1] at h
    cases h2 : mapOpt quoteEdge g.edges with
    | none =>
      rw [h2] at h
      simp at h
    | some es =>
      rw [h2] at h
      simp at h
      exact ⟨ns, es, rfl, rfl, h.symm⟩

/-- Destructure a successful `quoteEdge`. -/
theorem quoteEdge_eq (e y : String × String) (h : quoteEdge e = some y) :
    ∃ qu qv, _quote_label e.1 = some qu ∧ _quote_label e.2 = some qv ∧
      y = (qu, qv) := by
  unfold quoteEdge at h
  cases h1 : _quote_label e.1 with
  | none =>
    rw [h1] at h
    simp at h
  | some qu =>
    rw [h1] at h
    cases h2 : _quote_label e.2 with
    | none =>
      rw [h2] at h
      simp at h
    | some qv =>
      rw [h2] at h
      simp at h
      exact ⟨qu, qv, rfl, rfl, h.symm⟩

/-- Destructure a successful `_show_dot`. -/
theorem show_dot_eq (g : Graph) (lines : List String) (g' : Graph)
    (h : _show_dot g = some (lines, g')) :
    relabelQuote g = some g' ∧ lines = writeDot (reverseGraph g') := by
  unfold _show_dot at h
  cases hrg : relabelQuote g with
  | none =>
    rw [hrg] at h
    simp at h
  | some rg =>
    rw [hrg] at h
    have h' : (writeDot (reverseGraph rg), rg) = (lines, g') := by
      simpa using h
    have h1 : writeDot (reverseGraph rg) = lines := congrArg Prod.fst h'
    have h2 : rg = g' := congrArg Prod.snd h'
    subst h2
    exact ⟨rfl, h1.symm⟩

/-- Claim C8: DOT rendering emits an unquoted node label `a:b` as the
quoted `"a:b"` declaration line, and emits every internal edge `(u, v)` in
reversed direction, as `v -> u` (on the quoted labels). -/
theorem show_dot_quotes_and_reverses (g : Graph) (lines : List String) (g' : Graph)
    (hrun : _show_dot g = some (lines, g')) :
    ("a:b" ∈ g.nodes → ("\"a:b\"" ++ ";") ∈ lines) ∧
    (∀ u v, (u, v) ∈ g.edges → ∃ qu qv,
      _quote_label u = some qu ∧ _quote_label v = some qv ∧
        (qv ++ " -> " ++ qu ++ ";") ∈ lines) := by
  obtain ⟨hrg, hlines⟩ := show_dot_eq g lines g' hrun
  obtain ⟨ns, es, hns, hes, hg'⟩ := relabelQuote_eq g g' hrg
  constructor
  · intro hab
    obtain ⟨y, hy1, hy2⟩ := mapOpt_mem _quote_label g.nodes ns hns "a:b" hab
    have hyq : y = "\"a:b\"" := by
      rw [show _quote_label "a:b" = some "\"a:b\"" by decide] at hy1
      exact (Option.some_inj.mp hy1).symm
    subst hyq
    rw [hlines, hg']
    unfold writeDot reverseGraph
    exact List.mem_append_left _ (List.mem_append_left _ (List.mem_append_right _
      (List.mem_map.mpr ⟨"\"a:b\"", List.mem_dedup.mpr hy2, rfl⟩)))
  · intro u v huv
    obtain ⟨y, hy1, hy2⟩ := mapOpt_mem quoteEdge g.edges es hes (u, v) huv
    obtain ⟨qu, qv, hqu, hqv, hy⟩ := quoteEdge_eq (u, v) y hy1
    refine ⟨qu, qv, hqu, hqv, ?_⟩
    rw [hlines, hg']
    unfold writeDot reverseGraph
    refine List.mem_append_left _ (List.mem_append_right _ ?_)
    refine List.mem_map.mpr ⟨(qv, qu), ?_, rfl⟩
    exact List.mem_map.mpr ⟨(qu, qv), List.mem_dedup.mpr (hy ▸ hy2), rfl⟩

theorem show_dot_quotes_and_reverses_witness :
    (_show_dot ⟨["a:b", "c"], [("a:b", "c")]⟩ =
      some (["digraph  \x7b", "\"a:b\";", "\"c\";", "\"c\" -> \"a:b\";", "\x7d"],
        Graph.mk ["\"a:b\"", "\"c\""] [("\"a:b\"", "\"c\"")])) ∧
    (("a:b" ∈ (Graph.mk ["a:b", "c"] [("a:b", "c")]).nodes →
      ("\"a:b\"" ++ ";") ∈ ["digraph  \x7b", "\"a:b\";", "\"c\";", "\"c\" -> \"a:b\";", "\x7d"]) ∧
     (∀ u v, (u, v) ∈ (Graph.mk ["a:b", "c"] [("a:b", "c")]).edges → ∃ qu qv,
      _quote_label u = some qu ∧ _quote_label v = some qv ∧
        (qv ++ " -> " ++ qu ++ ";") ∈
          ["digraph  \x7b", "\"a:b\";", "\"c\";", "\"c\" -> \"a:b\";", "\x7d"])) :=
  ⟨by decide,
    show_dot_quotes_and_reverses ⟨["a:b", "c"], [("a:b", "c")]⟩
      ["digraph  \x7b", "\"a:b\";", "\"c\";", "\"c\" -> \"a:b\";", "\x7d"]
      (Graph.mk ["\"a:b\"", "\"c\""] [("\"a:b\"", "\"c\"")]) (by decide)⟩

/-! ### `get_pipelines` and `_show_mermaid` -/

/-- Code-point lexicographic `<` on character lists (Python's `<` on
`str`). -/
def lexLt : List Char → List Char → Bool
  | [], [] => false
  | [], _ :: _ => true
  | _ :: _, [] => false
  | a :: as, b :: bs => if a = b then lexLt as bs else decide (a < b)

/-- `a ≤ b` in Python's string order. -/
def strLe (a b : String) : Bool := !(lexLt b.data a.data)

/-- Python's tuple comparison on string pairs. -/
def pairLe (a b : String × String) : Bool :=
  if a.1 = b.1 then !(lexLt b.2.data a.2.data) else lexLt a.1.data b.1.data

def insertLe {α : Type} (le : α → α → Bool) (x : α) : List α → List α
  | [] => [x]
  | y :: ys => if le x y then x :: y :: ys else y :: insertLe le x ys

/-- Python `sorted`: a deterministic ascending sort (insertion sort; it
agrees with Python's sort on the orders used here). -/
def insertionSort {α : Type} (le : α → α → Bool) : List α → List α
  | [] => []
  | x :: xs => insertLe le x (insertionSort le xs)

/-- Modelled from the spec: `dvc.repo.graph.get_pipelines` (the module is
not under `src/`): the pipeline-partitioning utility returning the list of
weakly-connected-component subgraphs of the graph, each a self-contained
copy, in first-node order. -/
def get_pipelines (g : Graph) : List Graph :=
  (g.nodes.foldl
    (fun (acc : List Graph × Finset String) n =>
      if n ∈ acc.2 then acc
      else
        let comp := satClosure g.nodes.toFinset (undirAdj g) {n}
        (acc.1 ++ [Graph.mk
            (g.nodes.filter (fun m => decide (m ∈ comp)))
            (g.edges.filter (fun e => decide (e.1 ∈ comp) && decide (e.2 ∈ comp)))],
          acc.2 ∪ comp))
    ([], ∅)).1

/-- `_show_mermaid(graph, markdown)`: emit `flowchart TD`; per pipeline,
declare the sorted nodes as `nodeK["label"]` with the counter
`total_nodes` continuing across pipelines, then emit the pipeline's edges
sorted, each internal edge `(b, a)` written as the reversed
`node_ids[a]-->node_ids[b]`; with `markdown` wrap the result in a fenced
`mermaid` block.  The `node_ids` dictionary lookup always succeeds for
well-formed pipelines; the embedding defaults to `""` where Python would
raise `KeyError`. -/
def _show_mermaid (g : Graph) (markdown : Bool) : String :=
  let pipelines := get_pipelines g
  let res := pipelines.foldl
    (fun (acc : String × Nat) pipeline =>
      let stage1 := (insertionSort strLe pipeline.nodes).foldl
        (fun (a : String × Nat × List (String × String)) node =>
          let total := a.2.1 + 1
          let node_id := "node" ++ toString total
          (a.1 ++ "\n\t" ++ node_id ++ "[\"" ++ node ++ "\"]", total,
            a.2.2 ++ [(node, node_id)]))
        (acc.1, acc.2, [])
      let sortedEdges :=
        insertionSort pairLe (pipeline.edges.map (fun e => (e.2, e.1)))
      let stage2 := sortedEdges.foldl
        (fun (t : String) ab =>
          t ++ "\n\t" ++ ((stage1.2.2.lookup ab.1).getD "") ++ "-->"
            ++ ((stage1.2.2.lookup ab.2).getD ""))
        stage1.1
      (stage2, stage1.2.1))
    ("flowchart TD", 0)
  if markdown then "```mermaid\n" ++ res.1 ++ "\n```" else res.1

/-- Split a character list at newlines. -/
def splitLinesAux (cur : List Char) : List Char → List (List Char)
  | [] => [cur.reverse]
  | c :: rest =>
    if c = '\n' then cur.reverse :: splitLinesAux [] rest
    else splitLinesAux (c :: cur) rest

/-- The lines of a rendered text. -/
def textLines (s : String) : List String :=
  (splitLinesAux [] s.data).map String.mk

/-- A Mermaid node declaration line: `<tab>nodeK["label"]`. -/
def isNodeDeclLine (l : String) : Bool :=
  ("\tnode").data.isPrefixOf l.data && ("\"]").data.isSuffixOf l.data

/-- A Mermaid edge line contains the arrow `-->`. -/
def isEdgeLine (l : String) : Bool :=
  subOccurs ("-->").data l.data

/-- The synthetic id of a node declaration line (the text between the tab
and the opening bracket). -/
def nodeIdOfDecl (l : String) : Option String :=
  if isNodeDeclLine l then
    some (String.mk ((l.data.drop 1).takeWhile (fun c => decide (c ≠ '['))))
  else none

/-- Claim C9: rendering the two pipelines `{A->B}` and `{C->D}` with the
markdown flag produces output whose first line is the ```` ```mermaid ````
fence and whose last line is the closing fence, with exactly 4 node
declaration lines, exactly 2 edge lines, and pairwise distinct synthetic
node ids (the counter continues across pipelines). -/
theorem show_mermaid_two_pipelines :
    (textLines (_show_mermaid ⟨["A", "B", "C", "D"], [("A", "B"), ("C", "D")]⟩ true)).head?
        = some "```mermaid" ∧
    (textLines (_show_mermaid ⟨["A", "B", "C", "D"], [("A", "B"), ("C", "D")]⟩ true)).getLast?
        = some "```" ∧
    (textLines (_show_mermaid ⟨["A", "B", "C", "D"], [("A", "B"), ("C", "D")]⟩ true)).countP
        isNodeDeclLine = 4 ∧
    (textLines (_show_mermaid ⟨["A", "B", "C", "D"], [("A", "B"), ("C", "D")]⟩ true)).countP
        isEdgeLine = 2 ∧
    ((textLines (_show_mermaid ⟨["A", "B", "C", "D"], [("A", "B"), ("C", "D")]⟩ true)).filterMap
        nodeIdOfDecl).Nodup := by
  decide

/-! ### `_collect_targets`, `_transform`, `_build` and `CmdDAG.run` -/

/-- A resolved stage as consumed by `_collect_targets`: its addressing
string and the string forms of its outputs. -/
structure Stage where
  addressing : String
  outs : List String
deriving DecidableEq, Repr

/-- Modelled from the spec: the external collaborators of §6, which are
not under `src/`.  `collect_granular` is the target-collection service
returning (stage, optional sub-path) pairs; `outs_under` is the
path-prefix index query `outs_trie.itervalues(prefix=repo.fs.parts(path))`
returning the string forms of all known outputs under the prefix; `graph`
and `outs_graph` are the stage-level and output-level structural graphs of
the project index with `_transform`'s string relabeling already applied
(the relabeling is a pure renaming by the stage addressing / output path,
§4.1). -/
structure Repo where
  collect_granular : String → List (Stage × Option String)
  outs_under : String → List String
  graph : Graph
  outs_graph : Graph

/-- Python `list.extend` with a *string* argument: the string is an
iterable of its characters, so the list is extended with one-character
strings. -/
def extendWithString (targets : List String) (s : String) : List String :=
  targets ++ s.data.map (fun c => String.mk [c])

/-- `_collect_targets(repo, target, outs)`: empty (falsy) target gives no
targets; without `outs` each resolved stage contributes its addressing;
with `outs`, a pair without sub-path contributes the stage's output
strings, and a pair with a sub-path runs `targets.extend(str(out))` for
each output under the prefix — extending the list with the characters of
the string. -/
def _collect_targets (repo : Repo) (target : Option String) (outs : Bool) :
    List String :=
  match target with
  | none => []
  | some t =>
    if t = "" then []
    else
      let pairs := repo.collect_granular t
      if !outs then pairs.map (fun p => p.1.addressing)
      else
        pairs.foldl
          (fun targets p =>
            match p.2 with
            | none => targets ++ p.1.outs
            | some path => (repo.outs_under path).foldl extendWithString targets)
          []

/-- `_transform(index, outs)`: select the output-level or stage-level
graph (string relabeling folded into `Repo`, see above). -/
def _transform (repo : Repo) (outs : Bool) : Graph :=
  if outs then repo.outs_graph else repo.graph

/-- The exceptions `CmdDAG.run` can propagate: the mutual-exclusion
`InvalidArgumentError`, the networkx error when a target is not a node of
the graph being filtered, and the `IndexError` from `_quote_label` on an
empty label. -/
inductive RunError where
  | invalidArgument (msg : String)
  | targetNotInGraph
  | labelIndexError
deriving DecidableEq, Repr

instance : DecidableEq (Except RunError Nat) := fun a b =>
  match a, b with
  | .ok x, .ok y =>
    if h : x = y then .isTrue (by rw [h]) else .isFalse (fun hc => h (by cases hc; rfl))
  | .error x, .error y =>
    if h : x = y then .isTrue (by rw [h]) else .isFalse (fun hc => h (by cases hc; rfl))
  | .ok _, .error _ => .isFalse (fun hc => Except.noConfusion hc)
  | .error _, .ok _ => .isFalse (fun hc => Except.noConfusion hc)

/-- `_build(repo, target, full, outs, collapse_foreach_matrix)`. -/
def _build (repo : Repo) (target : Option String)
    (full outs collapse_foreach_matrix : Bool) : Option Graph :=
  let targets := _collect_targets repo target outs
  let graph := _transform repo outs
  match _filter graph targets full with
  | none => none
  | some fg =>
    some (if collapse_foreach_matrix then _collapse_foreach_matrix fg else fg)

/-- Modelled from the spec: `dvc.dagascii.draw` (the module is not under
`src/`) renders one pipeline's nodes and edges as boxed ASCII art; the
exact glyph layout is an implementation choice and the function is total,
so we emit a simple deterministic listing. -/
def draw (nodes : List String) (edges : List (String × String)) : String :=
  String.intercalate " " nodes ++ " | "
    ++ String.intercalate " " (edges.map (fun e => e.1 ++ "->" ++ e.2))

/-- `_show_ascii(graph)`: draw each pipeline and join with newlines. -/
def _show_ascii (g : Graph) : String :=
  String.intercalate "\n" ((get_pipelines g).map (fun p => draw p.nodes p.edges))

/-- The command-line arguments of `dvc dag`. -/
structure Args where
  target : Option String
  dot : Bool
  mermaid : Bool
  markdown : Bool
  collapse_foreach_matrix : Bool
  full : Bool
  outs : Bool
deriving DecidableEq, Repr

/-- `CmdDAG.run(self)`: raise the mutual-exclusion error when `--outs`
and `--collapse-foreach-matrix` are both set, otherwise build the graph
and render it with the selected renderer, returning exit status 0.
`ui.write` and the pager are external output effects dropped by the
embedding; exceptions surface as `RunError`. -/
def CmdDAG_run (args : Args) (repo : Repo) : Except RunError Nat :=
  if args.outs && args.collapse_foreach_matrix then
    .error (.invalidArgument
      "`--outs` and `--collapse-foreach-matrix` are mutually exclusive")
  else
    match _build repo args.target args.full args.outs args.collapse_foreach_matrix with
    | none => .error .targetNotInGraph
    | some graph =>
      if args.dot then
        match _show_dot graph with
        | none => .error .labelIndexError
        | some _ => .ok 0
      else if args.mermaid || args.markdown then
        let _ := _show_mermaid graph args.markdown
        .ok 0
      else
        let _ := _show_ascii graph
        .ok 0

/-- A repository state for the `_collect_targets` bug: one resolved pair
with sub-path `"data"`, and a prefix index holding the single output path
`"foo"` under it. -/
def repoBug : Repo :=
  ⟨fun _ => [(⟨"train", ["foo"]⟩, some "data")], fun _ => ["foo"],
    ⟨[], []⟩, ⟨[], []⟩⟩

/-- Claim C1: evaluating the code at the failing input.  With the outputs
flag set and a resolved pair carrying a sub-path, `_collect_targets` runs
`targets.extend(str(out))`, extending the list with the characters of the
output path: the result is `["f", "o", "o"]`, not the whole identifier
`["foo"]` (contrast the no-sub-path branch, which correctly extends with
`[str(out) for out in stage.outs]`). -/
theorem collect_targets_extends_characters :
    _collect_targets repoBug (some "data") true = ["f", "o", "o"] ∧
    _collect_targets repoBug (some "data") true ≠ ["foo"] := by
  decide

/-- A command invocation with no special flags and a target. -/
def argsPlain : Args := ⟨some "t", false, false, false, false, false, false⟩

/-- A repository whose resolved stage addressing `"s"` is not a node of
the stage graph. -/
def repoMissing : Repo :=
  ⟨fun _ => [(⟨"s", []⟩, none)], fun _ => [], ⟨["a"], []⟩, ⟨[], []⟩⟩

/-- Claim C10 counterexample: without the invalid flag combination the
command does not always return exit status 0 — here the collected target
is not a node of the graph and filtering raises (networkx error),
propagating out of the command. -/
theorem run_not_always_zero :
    CmdDAG_run argsPlain repoMissing ≠ .ok 0 := by
  decide

/-- Claim C10 (amended): with both `--outs` and
`--collapse-foreach-matrix` set, the command raises the mutual-exclusion
`InvalidArgumentError` whatever the project state (so before any graph is
consulted), and this is the only `InvalidArgumentError` the command
raises; without that combination, provided the build succeeds (each
collected target is a node of the selected graph) and, when `--dot` is
chosen, DOT rendering succeeds, the command returns exit status 0. -/
theorem run_exit_status (args : Args) (repo : Repo) :
    (args.outs = true → args.collapse_foreach_matrix = true →
      CmdDAG_run args repo = .error (.invalidArgument
        "`--outs` and `--collapse-foreach-matrix` are mutually exclusive")) ∧
    (¬ (args.outs = true ∧ args.collapse_foreach_matrix = true) →
      ∀ graph, _build repo args.target args.full args.outs
          args.collapse_foreach_matrix = some graph →
        (args.dot = true → (_show_dot graph).isSome) →
        CmdDAG_run args repo = .ok 0) := by
  constructor
  · intro h1 h2
    unfold CmdDAG_run
    rw [h1, h2]
    rfl
  · intro hno graph hbuild hdot
    unfold CmdDAG_run
    have hcond : (args.outs && args.collapse_foreach_matrix) = false := by
      cases ho : args.outs <;> cases hc : args.collapse_foreach_matrix <;> simp_all
    rw [hcond]
    simp only [Bool.false_eq_true, if_false]
    rw [hbuild]
    cases hd : args.dot with
    | true =>
      obtain ⟨x, hx⟩ := Option.isSome_iff_exists.mp (hdot hd)
      simp [hx]
    | false =>
      simp only [Bool.false_eq_true, if_false]
      cases hm : (args.mermaid || args.markdown) <;> simp

def repoOk : Repo := ⟨fun _ => [], fun _ => [], ⟨["a"], []⟩, ⟨[], []⟩⟩

theorem run_exit_status_witness :
    (CmdDAG_run ⟨none, false, false, false, true, false, true⟩ repoOk =
      .error (.invalidArgument
        "`--outs` and `--collapse-foreach-matrix` are mutually exclusive")) ∧
    (CmdDAG_run ⟨none, false, false, false, false, false, false⟩ repoOk = .ok 0) :=
  ⟨(run_exit_status ⟨none, false, false, false, true, false, true⟩ repoOk).1 rfl rfl,
   (run_exit_status ⟨none, false, false, false, false, false, false⟩ repoOk).2
     (by decide) repoOk.graph (by decide) (by decide)⟩

end DvcDag
